import Mathlib

/-!
# rss-reader: the feed cache, its refresh path and its read paths

A shallow embedding of `main.go`.  The process-wide variables `dbMap` and
`rssUrls` are passed explicitly; the outcome of the network call
`fp.ParseURL(url)`, of `json.Marshal`, of `upgrader.Upgrade` and of
`conn.WriteMessage` are inputs of the functions that perform them.
Goroutines are run to completion one after the other.
-/

namespace RssReader

/-- The `Config` struct of `main.go` (lines 17-21). -/
structure Config where
  Values : List String
  ReFresh : Int
  AutoUpdatePush : Int
  deriving DecidableEq, Repr

namespace gofeed

/-- The fields of the parser library's item that matter here: `updateFeed` reads
`Link`, `Title` and `Description`; the others are dropped by it. -/
structure Item where
  Title : String
  Description : String
  Content : String
  Link : String
  Published : String
  GUID : String
  deriving DecidableEq, Repr

/-- The fields of the parser library's feed that matter here: `updateFeed` reads
`Title`, `Link` and `Items`. -/
structure Feed where
  Title : String
  Description : String
  Link : String
  FeedLink : String
  Items : List Item
  deriving DecidableEq, Repr

end gofeed

/-- Modelled from the spec: the declaration of the struct `item` is not in
`main.go`; its fields are the three the composite literal of `updateFeed`
(lines 180-184) sets, which are the three of the spec's Item (link, title,
description). -/
structure item where
  Link : String
  Title : String
  Description : String
  deriving DecidableEq, Repr

/-- Modelled from the spec: the declaration of the struct `feed` is not in
`main.go`; its fields are the four the composite literal of `updateFeed`
(lines 173-178) sets, which are those of the spec's FeedSnapshot (title, link,
items, and the acceptance time, kept under the key "lastupdate" of `Custom`).
`Custom` is a Go `map[string]string`, held here as its list of bindings. -/
structure feed where
  Title : String
  Link : String
  Custom : List (String × String)
  Items : List item
  deriving DecidableEq, Repr

/-- The value bound to the key "lastupdate" in `Custom`, if any. -/
def feed.lastupdate (f : feed) : Option String :=
  f.Custom.lookup "lastupdate"

/-- The global `dbMap : map[string]feed`: a lookup `dbMap[url]` gives
`some cache` when `ok` is true and `none` when it is false. -/
abbrev DbMap := String → Option feed

/-- The map made by `init` (line 54): `make(map[string]feed)`. -/
def DbMap.empty : DbMap := fun _ => none

/-- The assignment `dbMap[url] = v` (line 188). -/
def DbMap.set (db : DbMap) (url : String) (v : feed) : DbMap :=
  fun k => if k = url then some v else db k

/-- The composite literal of lines 180-184. -/
def toItem (v : gofeed.Item) : item :=
  { Link := v.Link, Title := v.Title, Description := v.Description }

/-- The loop of lines 179-185: each fetched item is appended, in turn, as an
`item` carrying its link, title and description. -/
def appendItems (acc : List item) (items : List gofeed.Item) : List item :=
  items.foldl (fun acc v => acc ++ [toItem v]) acc

/-- The value `customFeed` built at lines 173-185. -/
def customFeed (result : gofeed.Feed) (formattedTime : String) : feed :=
  { Title := result.Title
    Link := result.Link
    Custom := [("lastupdate", formattedTime)]
    Items := appendItems [] result.Items }

/-- The condition of the `if` at lines 167-170: an entry exists, both item
lists are non-empty and the two first links are equal. -/
def noUpdate (db : DbMap) (url : String) (result : gofeed.Feed) : Bool :=
  match db url with
  | none => false
  | some cache =>
    match result.Items, cache.Items with
    | r0 :: _, c0 :: _ => r0.Link == c0.Link
    | _, _ => false

/-- The function `updateFeed` (lines 159-189).  `parsed` is what
`fp.ParseURL(url)` returned: `.error err` or `.ok result`.  The assignment to
`fp.UserAgent` touches the parser only. -/
def updateFeed (db : DbMap) (parsed : Except String gofeed.Feed)
    (url formattedTime : String) : DbMap :=
  match parsed with
  | .error _ => db
  | .ok result =>
    if noUpdate db url result then db
    else db.set url (customFeed result formattedTime)

/-- One iteration of the `for` of `updateFeeds` (lines 151-154): one
`updateFeed` per configured url, all with the same `formattedTime`; `fp` gives
the outcome of the fetch of each url in this iteration. -/
def updateFeedsTick (cfg : Config) (fp : String → Except String gofeed.Feed)
    (formattedTime : String) (db : DbMap) : DbMap :=
  cfg.Values.foldl (fun db url => updateFeed db (fp url) url formattedTime) db

/-- The first `n` iterations of the endless loop of `updateFeeds`
(lines 145-157); `now i` is the formatted time of iteration `i` and `fp i` the
fetch outcomes of iteration `i`. -/
def updateFeeds (cfg : Config) (fp : Nat → String → Except String gofeed.Feed)
    (now : Nat → String) : Nat → DbMap → DbMap
  | 0, db => db
  | n + 1, db => updateFeedsTick cfg (fp n) (now n) (updateFeeds cfg fp now n db)

/-- The function `getFeeds` (lines 192-206). -/
def getFeeds (cfg : Config) (db : DbMap) : List feed :=
  cfg.Values.foldl
    (fun feeds url =>
      match db url with
      | none => feeds
      | some cache => feeds ++ [cache])
    []

/-- The function `getKeywords` (lines 210-225). -/
def getKeywords (cfg : Config) (db : DbMap) : String :=
  cfg.Values.foldl
    (fun words url =>
      match db url with
      | none => words
      | some cache => if cache.Title ≠ "" then words ++ (cache.Title ++ ",") else words)
    ""

/-- One websocket connection as the handler sees it: `log` holds every call of
`conn.WriteMessage` in order (the payload, and whether the call succeeded), and
`closed` tells whether `conn.Close()` has run. -/
structure Conn where
  log : List (String × Bool)
  closed : Bool
  deriving DecidableEq, Repr

/-- The call `conn.WriteMessage(websocket.TextMessage, data)` (line 130).
`sendOk n data` tells whether the call number `n` of the connection (counted
from 0), carrying `data`, succeeds. -/
def Conn.WriteMessage (sendOk : Nat → String → Bool) (conn : Conn) (data : String) :
    Conn × Bool :=
  let ok := sendOk conn.log.length data
  ({ conn with log := conn.log ++ [(data, ok)] }, ok)

/-- What the handler holds while it runs: the global `dbMap` and its own
connection. -/
structure WsState where
  dbMap : DbMap
  conn : Conn

/-- The inner `for` of `wsHandler` (lines 116-136) over the urls still to
visit.  The boolean of the result is true when the body executed `return`
(line 134), false when the loop ran to its end. -/
def wsPass (jsonMarshal : feed → Except String String) (sendOk : Nat → String → Bool) :
    List String → WsState → WsState × Bool
  | [], st => (st, false)
  | url :: rest, st =>
    match st.dbMap url with
    | none => wsPass jsonMarshal sendOk rest st
    | some cache =>
      match jsonMarshal cache with
      | .error _ => wsPass jsonMarshal sendOk rest st
      | .ok data =>
        match st.conn.WriteMessage sendOk data with
        | (conn, true) => wsPass jsonMarshal sendOk rest { st with conn := conn }
        | (conn, false) => ({ st with conn := conn }, true)

/-- The outer `for` of `wsHandler` (lines 115-142), run for at most `fuel`
passes.  The boolean of the result is true when the handler returned, false
when the passes allowed by `fuel` are used up and the loop is still running.
`time.Sleep` changes nothing of the state. -/
def wsLoop (cfg : Config) (jsonMarshal : feed → Except String String)
    (sendOk : Nat → String → Bool) : Nat → WsState → WsState × Bool
  | 0, st => (st, false)
  | fuel + 1, st =>
    match wsPass jsonMarshal sendOk cfg.Values st with
    | (st1, true) => (st1, true)
    | (st1, false) =>
      if cfg.AutoUpdatePush = 0 then (st1, true)
      else wsLoop cfg jsonMarshal sendOk fuel st1

/-- The outcome of one run of `wsHandler`: the global `dbMap` after it, every
call of `conn.WriteMessage` it made, whether the connection was closed by the
deferred `conn.Close()`, and whether the handler returned. -/
structure Session where
  dbMap : DbMap
  log : List (String × Bool)
  closed : Bool
  returned : Bool

/-- The function `wsHandler` (lines 107-143), run for at most `fuel` passes.
`upgrade` tells whether `upgrader.Upgrade` succeeded; a fresh connection has
an empty log.  The deferred `conn.Close()` runs when the handler returns. -/
def wsHandler (cfg : Config) (jsonMarshal : feed → Except String String) (upgrade : Bool)
    (sendOk : Nat → String → Bool) (fuel : Nat) (db : DbMap) : Session :=
  if upgrade then
    match wsLoop cfg jsonMarshal sendOk fuel { dbMap := db, conn := { log := [], closed := false } } with
    | (st, true) => { dbMap := st.dbMap, log := st.conn.log, closed := true, returned := true }
    | (st, false) => { dbMap := st.dbMap, log := st.conn.log, closed := st.conn.closed, returned := false }
  else
    { dbMap := db, log := [], closed := false, returned := true }

/-- The operations that run against the cache after startup. -/
inductive Op where
  | updateFeed (url : String) (parsed : Except String gofeed.Feed) (formattedTime : String)
  | updateFeedsTick (fp : String → Except String gofeed.Feed) (formattedTime : String)
  | getFeeds
  | getKeywords
  | wsHandler (upgrade : Bool) (sendOk : Nat → String → Bool) (fuel : Nat)

/-- The goroutines that run `updateFeed` are those started at line 153, one per
configured url. -/
def Op.launched (cfg : Config) : Op → Prop
  | .updateFeed url _ _ => url ∈ cfg.Values
  | _ => True

/-- The cache after one operation.  `getFeeds` and `getKeywords` return a value
and assign nothing. -/
def Op.run (cfg : Config) (jsonMarshal : feed → Except String String) (db : DbMap) :
    Op → DbMap
  | .updateFeed url parsed formattedTime => RssReader.updateFeed db parsed url formattedTime
  | .updateFeedsTick fp formattedTime => RssReader.updateFeedsTick cfg fp formattedTime db
  | .getFeeds => db
  | .getKeywords => db
  | .wsHandler upgrade sendOk fuel =>
    (RssReader.wsHandler cfg jsonMarshal upgrade sendOk fuel db).dbMap

/-- The cache after a sequence of operations, the first of the list first. -/
def runOps (cfg : Config) (jsonMarshal : feed → Except String String) (db : DbMap)
    (ops : List Op) : DbMap :=
  ops.foldl (Op.run cfg jsonMarshal) db

/-- The snapshot the spec has a changed fetch store: the title and link of the
result, its items transformed one to one in order, and the cycle timestamp as
last update. -/
def snapshotOf (result : gofeed.Feed) (ts : String) : feed :=
  { Title := result.Title
    Link := result.Link
    Custom := [("lastupdate", ts)]
    Items := result.Items.map
      (fun v => { Link := v.Link, Title := v.Title, Description := v.Description }) }

/-- What is recorded of the calls of `conn.WriteMessage` made after the first
`base` calls of a connection: each recorded outcome is the outcome of the call
with that number, and a failed call is the last one recorded and comes with
`returned` set. -/
def LogInv (sendOk : Nat → String → Bool) (base : Nat) (ext : List (String × Bool))
    (returned : Bool) : Prop :=
  (∀ (i : Nat) (d : String) (b : Bool), ext[i]? = some (d, b) → b = sendOk (base + i) d) ∧
  (∀ (i : Nat) (d : String), ext[i]? = some (d, false) → i + 1 = ext.length ∧ returned = true)

/-! ## Scenario data of the spec -/

/-- The cached snapshot of source "A" in the scenarios: title "Feed A", one
item with link "a1". -/
def feedA : feed :=
  { Title := "Feed A", Link := "https://a.example/", Custom := [("lastupdate", "t0")],
    Items := [{ Link := "a1", Title := "first", Description := "" }] }

/-- The cache of the scenario: only "A" has an entry. -/
def dbA : DbMap := fun k => if k = "A" then some feedA else none

/-- The configuration of the scenario: sources "A" and "B", push interval 0. -/
def cfgAB : Config := { Values := ["A", "B"], ReFresh := 1, AutoUpdatePush := 0 }

/-- A fetched item with the given link. -/
def fetchedItem (link title : String) : gofeed.Item :=
  { Title := title, Description := "d", Content := "c", Link := link, Published := "p",
    GUID := "g" }

/-- A fetch result whose newest item has the given link, followed by one older
item. -/
def fetched (title link : String) : gofeed.Feed :=
  { Title := title, Description := "", Link := "https://a.example/", FeedLink := "",
    Items := [fetchedItem link "new", fetchedItem "old" "older"] }

/-- A cache in which source "A" holds a snapshot whose newest link is "x". -/
def dbX : DbMap := DbMap.set DbMap.empty "A" (snapshotOf (fetched "Feed A" "x") "t0")

end RssReader

namespace RssReader

/-! ## The write path -/

theorem appendItems_eq (acc : List item) (items : List gofeed.Item) :
    appendItems acc items = acc ++ items.map toItem := by
  induction items generalizing acc with
  | nil => simp [appendItems]
  | cons v rest ih =>
    have h : appendItems acc (v :: rest) = appendItems (acc ++ [toItem v]) rest := rfl
    rw [h, ih]
    simp

theorem customFeed_eq (result : gofeed.Feed) (ts : String) :
    customFeed result ts = snapshotOf result ts := by
  simp [customFeed, snapshotOf, appendItems_eq, toItem]

theorem set_same (db : DbMap) (u : String) (v : feed) : db.set u v u = some v := by
  simp [DbMap.set]

theorem set_other (db : DbMap) (u k : String) (v : feed) (h : k ≠ u) :
    db.set u v k = db k := by
  simp [DbMap.set, h]

theorem noUpdate_iff (db : DbMap) (u : String) (result : gofeed.Feed) :
    noUpdate db u result = true ↔
      ∃ cache c0 cs r0 rs, db u = some cache ∧ cache.Items = c0 :: cs ∧
        result.Items = r0 :: rs ∧ r0.Link = c0.Link := by
  unfold noUpdate
  cases hdb : db u with
  | none => simp
  | some cache =>
    cases hr : result.Items with
    | nil => simp
    | cons r0 rs =>
      cases hc : cache.Items with
      | nil => simp [hc]
      | cons c0 cs => simp [hc]

theorem updateFeed_write (db : DbMap) (u ts : String) (result : gofeed.Feed)
    (h : noUpdate db u result = false) :
    updateFeed db (.ok result) u ts = db.set u (snapshotOf result ts) := by
  simp [updateFeed, h, customFeed_eq]

theorem updateFeed_skip (db : DbMap) (u ts : String) (result : gofeed.Feed)
    (h : noUpdate db u result = true) :
    updateFeed db (.ok result) u ts = db := by
  simp [updateFeed, h]

/-- C1: two consecutive successful fetches of the same source whose results
each have at least one item and carry the same newest link: the second
`updateFeed` leaves the cache exactly as the first one left it. -/
theorem updateFeed_idempotent (db : DbMap) (u t1 t2 : String) (r1 r2 : gofeed.Feed)
    (h1 : r1.Items ≠ []) (h2 : r2.Items ≠ [])
    (hl : (r1.Items.head h1).Link = (r2.Items.head h2).Link) :
    updateFeed (updateFeed db (.ok r1) u t1) (.ok r2) u t2 = updateFeed db (.ok r1) u t1 := by
  obtain ⟨a, as, ha⟩ := List.exists_cons_of_ne_nil h1
  obtain ⟨b, bs, hb⟩ := List.exists_cons_of_ne_nil h2
  have hab : a.Link = b.Link := by simpa [ha, hb] using hl
  apply updateFeed_skip
  rw [noUpdate_iff]
  cases hn : noUpdate db u r1 with
  | true =>
    rw [updateFeed_skip db u t1 r1 hn]
    obtain ⟨cache, c0, cs, r0, rs, hdb, hc, hr, hlink⟩ := (noUpdate_iff db u r1).1 hn
    refine ⟨cache, c0, cs, b, bs, hdb, hc, hb, ?_⟩
    rw [ha] at hr
    injection hr with hr0 _
    rw [← hab, hr0, hlink]
  | false =>
    rw [updateFeed_write db u t1 r1 hn]
    refine ⟨snapshotOf r1 t1, toItem a, as.map toItem, b, bs, set_same _ _ _, ?_, hb, ?_⟩
    · simp [snapshotOf, ha, toItem]
    · simp [toItem, hab]

/-- Witness of C1: the cache holds newest link "x" for "A" and the fetch
returns newest link "x" twice. -/
theorem updateFeed_idempotent_witness :
    updateFeed (updateFeed dbX (.ok (fetched "Feed A" "x")) "A" "t1")
        (.ok (fetched "Feed A (renamed)" "x")) "A" "t2"
      = updateFeed dbX (.ok (fetched "Feed A" "x")) "A" "t1" :=
  updateFeed_idempotent dbX "A" "t1" "t2" (fetched "Feed A" "x") (fetched "Feed A (renamed)" "x")
    (by decide) (by decide) (by decide)

/-- C2: when the cached entry of `u` has newest link A and a successful fetch has
newest link B ≠ A, the entry of `u` after `updateFeed` is the transformed
result: title and link of the result, the items mapped one to one in order
(same length, the i-th item carrying the i-th fetched link, title and
description), and `lastupdate` equal to the cycle timestamp. -/
theorem updateFeed_change_accepted (db : DbMap) (u ts : String) (cache : feed)
    (result : gofeed.Feed) (hdb : db u = some cache)
    (hc : cache.Items ≠ []) (hr : result.Items ≠ [])
    (hne : (result.Items.head hr).Link ≠ (cache.Items.head hc).Link) :
    ∃ e, updateFeed db (.ok result) u ts u = some e ∧
      e.Title = result.Title ∧ e.Link = result.Link ∧
      e.Items.length = result.Items.length ∧
      (∀ i : Nat, e.Items[i]? = (result.Items[i]?).map
        (fun v => ({ Link := v.Link, Title := v.Title, Description := v.Description } : item))) ∧
      e.lastupdate = some ts ∧ e.Custom = [("lastupdate", ts)] := by
  have hn : noUpdate db u result = false := by
    cases hb : noUpdate db u result with
    | false => rfl
    | true =>
      exfalso
      obtain ⟨cache1, c0, cs, r0, rs, hdb1, hc1, hr1, hlink⟩ := (noUpdate_iff db u result).1 hb
      rw [hdb] at hdb1
      injection hdb1 with hcache
      subst hcache
      apply hne
      simp [hc1, hr1, hlink]
  refine ⟨snapshotOf result ts, ?_, rfl, rfl, ?_, ?_, rfl, rfl⟩
  · rw [updateFeed_write db u ts result hn, set_same]
  · simp [snapshotOf]
  · intro i
    simp [snapshotOf]

/-- Witness of C2: the cache holds newest link "x" for "A" and the fetch
returns newest link "y". -/
theorem updateFeed_change_accepted_witness :
    ∃ e, updateFeed dbX (.ok (fetched "Feed A" "y")) "A" "t1" "A" = some e ∧
      e.Title = (fetched "Feed A" "y").Title ∧ e.Link = (fetched "Feed A" "y").Link ∧
      e.Items.length = (fetched "Feed A" "y").Items.length ∧
      (∀ i : Nat, e.Items[i]? = ((fetched "Feed A" "y").Items[i]?).map
        (fun v => ({ Link := v.Link, Title := v.Title, Description := v.Description } : item))) ∧
      e.lastupdate = some "t1" ∧ e.Custom = [("lastupdate", "t1")] :=
  updateFeed_change_accepted dbX "A" "t1" (snapshotOf (fetched "Feed A" "x") "t0")
    (fetched "Feed A" "y") (by decide) (by decide) (by decide) (by decide)

/-- C3: when the fetch or parse of `u` fails, `updateFeed` returns the cache it
was given: no entry is touched and none is created. -/
theorem updateFeed_fetch_failure (db : DbMap) (u ts err : String) :
    updateFeed db (.error err) u ts = db := rfl

/-- C6: a successful fetch writes in every non-matching case (no entry for `u`,
or no fetched items, or no cached items, or different newest links), storing
under `u` the snapshot built from the result with `lastupdate` = `ts`; it leaves
the cache unchanged when an entry exists, both item lists are non-empty and the
newest links are equal; so the first successful fetch of a source creates its
entry. -/
theorem updateFeed_change_detection (db : DbMap) (u ts : String) (result : gofeed.Feed) :
    ((db u = none ∨ result.Items = [] ∨ (∃ cache, db u = some cache ∧ cache.Items = []) ∨
        (∃ cache c0 cs r0 rs, db u = some cache ∧ cache.Items = c0 :: cs ∧
          result.Items = r0 :: rs ∧ r0.Link ≠ c0.Link)) →
      updateFeed db (.ok result) u ts = db.set u (snapshotOf result ts) ∧
      (snapshotOf result ts).lastupdate = some ts) ∧
    ((∃ cache c0 cs r0 rs, db u = some cache ∧ cache.Items = c0 :: cs ∧
          result.Items = r0 :: rs ∧ r0.Link = c0.Link) →
      updateFeed db (.ok result) u ts = db) ∧
    (db u = none → updateFeed db (.ok result) u ts u = some (snapshotOf result ts)) := by
  have hwrite : (db u = none ∨ result.Items = [] ∨
      (∃ cache, db u = some cache ∧ cache.Items = []) ∨
      (∃ cache c0 cs r0 rs, db u = some cache ∧ cache.Items = c0 :: cs ∧
        result.Items = r0 :: rs ∧ r0.Link ≠ c0.Link)) → noUpdate db u result = false := by
    intro h
    cases hb : noUpdate db u result with
    | false => rfl
    | true =>
      exfalso
      obtain ⟨cache, c0, cs, r0, rs, hdb, hc, hr, hlink⟩ := (noUpdate_iff db u result).1 hb
      rcases h with h | h | ⟨cache1, h, hnil⟩ | ⟨cache1, c1, cs1, r1, rs1, h, hc1, hr1, hne⟩
      · simp [hdb] at h
      · simp [hr] at h
      · rw [hdb] at h
        injection h with h
        subst h
        simp [hc] at hnil
      · rw [hdb] at h
        injection h with h
        subst h
        rw [hc] at hc1
        rw [hr] at hr1
        injection hc1 with hc0 _
        injection hr1 with hr0 _
        subst hc0
        subst hr0
        exact hne hlink
  refine ⟨fun h => ⟨updateFeed_write db u ts result (hwrite h), rfl⟩, fun h => ?_, fun h => ?_⟩
  · exact updateFeed_skip db u ts result ((noUpdate_iff db u result).2 h)
  · rw [updateFeed_write db u ts result (hwrite (Or.inl h)), set_same]

/-- Witness of C6: the first successful fetch of "B" into a cache that only
holds "A" creates the entry of "B". -/
theorem updateFeed_change_detection_witness :
    updateFeed dbA (.ok (fetched "Feed B" "b1")) "B" "t1" "B"
      = some (snapshotOf (fetched "Feed B" "b1") "t1") :=
  (updateFeed_change_detection dbA "B" "t1" (fetched "Feed B" "b1")).2.2 (by decide)

/-! ## The read paths -/

theorem getFeeds_fold (db : DbMap) (urls : List String) (acc : List feed) :
    urls.foldl
      (fun feeds url =>
        match db url with
        | none => feeds
        | some cache => feeds ++ [cache])
      acc = acc ++ urls.filterMap db := by
  induction urls generalizing acc with
  | nil => simp
  | cons url rest ih =>
    rw [List.foldl_cons, ih]
    cases h : db url <;> simp [List.filterMap_cons, h]

theorem getFeeds_eq (cfg : Config) (db : DbMap) :
    getFeeds cfg db = cfg.Values.filterMap db := by
  unfold getFeeds
  rw [getFeeds_fold]
  simp

theorem set_comm (db : DbMap) (u v : String) (a b : feed) (h : u ≠ v) :
    (db.set u a).set v b = (db.set v b).set u a := by
  funext k
  simp only [DbMap.set]
  by_cases hv : k = v
  · have hu : k ≠ u := fun hku => h (hku.symm.trans hv)
    simp [hv, h.symm]
  · simp [hv]

/-- C4: `getFeeds` returns the configured sources, in configured order, each
replaced by its cached snapshot when it has one and dropped otherwise; the
result does not depend on the order in which two entries were written; with
sources "A", "B" and only "A" cached the result has length 1 and holds the
snapshot of "A". -/
theorem getFeeds_order (cfg : Config) (db : DbMap) :
    getFeeds cfg db = cfg.Values.filterMap db ∧
    (∀ u v a b, u ≠ v →
      getFeeds cfg ((db.set u a).set v b) = getFeeds cfg ((db.set v b).set u a)) ∧
    getFeeds cfgAB dbA = [feedA] ∧ (getFeeds cfgAB dbA).length = 1 := by
  refine ⟨getFeeds_eq cfg db, ?_, by decide, by decide⟩
  intro u v a b h
  rw [set_comm db u v a b h]

theorem join_fold (acc : String) (l : List String) :
    l.foldl (fun r s => r ++ s) acc = acc ++ String.join l := by
  unfold String.join
  induction l generalizing acc with
  | nil => simp
  | cons x xs ih =>
    rw [List.foldl_cons, ih, List.foldl_cons, ih ("" ++ x)]
    simp [String.append_assoc]

theorem join_cons (x : String) (xs : List String) :
    String.join (x :: xs) = x ++ String.join xs := by
  have h : String.join (x :: xs) = xs.foldl (fun r s => r ++ s) ("" ++ x) := rfl
  rw [h, join_fold]
  simp

theorem getKeywords_fold (db : DbMap) (urls : List String) (acc : String) :
    urls.foldl
      (fun words url =>
        match db url with
        | none => words
        | some cache => if cache.Title ≠ "" then words ++ (cache.Title ++ ",") else words)
      acc
    = acc ++ String.join (((urls.filterMap db).filter (fun f => decide (f.Title ≠ ""))).map
        (fun f => f.Title ++ ",")) := by
  induction urls generalizing acc with
  | nil => simp [String.join]
  | cons url rest ih =>
    rw [List.foldl_cons, ih]
    cases h : db url with
    | none => simp [List.filterMap_cons, h]
    | some cache =>
      by_cases ht : cache.Title = ""
      · simp [List.filterMap_cons, h, ht]
      · simp [List.filterMap_cons, h, ht, join_cons, String.append_assoc]

/-- C5: `getKeywords` returns the non-empty titles of the present entries, taken
in configured source order, each followed by a comma; absent entries and empty
titles contribute nothing; with sources "A", "B" and only "A" cached under the
title "Feed A" the result is "Feed A,". -/
theorem getKeywords_eq (cfg : Config) (db : DbMap) :
    getKeywords cfg db
      = String.join (((cfg.Values.filterMap db).filter (fun f => decide (f.Title ≠ ""))).map
          (fun f => f.Title ++ ",")) ∧
    getKeywords cfgAB dbA = "Feed A," := by
  refine ⟨?_, by decide⟩
  unfold getKeywords
  rw [getKeywords_fold]
  simp

/-! ## The streaming handler -/

theorem logInv_nil (sendOk : Nat → String → Bool) (base : Nat) (returned : Bool) :
    LogInv sendOk base [] returned := by
  constructor <;> intro i <;> simp

theorem logInv_single (sendOk : Nat → String → Bool) (base : Nat) (data : String)
    (returned : Bool) (h : sendOk base data = false → returned = true) :
    LogInv sendOk base [(data, sendOk base data)] returned := by
  constructor
  · intro i d b hi
    cases i with
    | zero =>
      simp at hi
      obtain ⟨hd, hb⟩ := hi
      subst hd
      simpa using hb.symm
    | succ n => simp at hi
  · intro i d hi
    cases i with
    | zero =>
      simp at hi
      exact ⟨rfl, h hi.2⟩
    | succ n => simp at hi

theorem logInv_append (sendOk : Nat → String → Bool) (base : Nat)
    (ext1 ext2 : List (String × Bool)) (returned : Bool)
    (h1 : LogInv sendOk base ext1 false)
    (h2 : LogInv sendOk (base + ext1.length) ext2 returned) :
    LogInv sendOk base (ext1 ++ ext2) returned := by
  constructor
  · intro i d b hi
    by_cases hlt : i < ext1.length
    · rw [List.getElem?_append_left hlt] at hi
      exact h1.1 i d b hi
    · have hle : ext1.length ≤ i := Nat.le_of_not_lt hlt
      rw [List.getElem?_append_right hle] at hi
      have := h2.1 (i - ext1.length) d b hi
      rw [this]
      congr 1
      omega
  · intro i d hi
    by_cases hlt : i < ext1.length
    · rw [List.getElem?_append_left hlt] at hi
      have := (h1.2 i d hi).2
      simp at this
    · have hle : ext1.length ≤ i := Nat.le_of_not_lt hlt
      rw [List.getElem?_append_right hle] at hi
      obtain ⟨hlen, hret⟩ := h2.2 (i - ext1.length) d hi
      refine ⟨?_, hret⟩
      rw [List.length_append]
      omega

theorem wsPass_absent (jsonMarshal : feed → Except String String)
    (sendOk : Nat → String → Bool) (url : String) (rest : List String) (st : WsState)
    (h : st.dbMap url = none) :
    wsPass jsonMarshal sendOk (url :: rest) st = wsPass jsonMarshal sendOk rest st := by
  simp [wsPass, h]

theorem wsPass_marshal_error (jsonMarshal : feed → Except String String)
    (sendOk : Nat → String → Bool) (url : String) (rest : List String) (st : WsState)
    (cache : feed) (e : String) (h : st.dbMap url = some cache)
    (hj : jsonMarshal cache = .error e) :
    wsPass jsonMarshal sendOk (url :: rest) st = wsPass jsonMarshal sendOk rest st := by
  simp [wsPass, h, hj]

theorem wsPass_sent (jsonMarshal : feed → Except String String)
    (sendOk : Nat → String → Bool) (url : String) (rest : List String) (st : WsState)
    (cache : feed) (data : String) (h : st.dbMap url = some cache)
    (hj : jsonMarshal cache = .ok data) (hs : sendOk st.conn.log.length data = true) :
    wsPass jsonMarshal sendOk (url :: rest) st
      = wsPass jsonMarshal sendOk rest
          { dbMap := st.dbMap,
            conn := { log := st.conn.log ++ [(data, true)], closed := st.conn.closed } } := by
  simp [wsPass, h, hj, hs, Conn.WriteMessage]

theorem wsPass_send_failed (jsonMarshal : feed → Except String String)
    (sendOk : Nat → String → Bool) (url : String) (rest : List String) (st : WsState)
    (cache : feed) (data : String) (h : st.dbMap url = some cache)
    (hj : jsonMarshal cache = .ok data) (hs : sendOk st.conn.log.length data = false) :
    wsPass jsonMarshal sendOk (url :: rest) st
      = ({ dbMap := st.dbMap,
           conn := { log := st.conn.log ++ [(data, false)], closed := st.conn.closed } },
         true) := by
  simp [wsPass, h, hj, hs, Conn.WriteMessage]

theorem wsPass_inv (jsonMarshal : feed → Except String String) (sendOk : Nat → String → Bool)
    (urls : List String) (st : WsState) :
    (wsPass jsonMarshal sendOk urls st).1.dbMap = st.dbMap ∧
    (wsPass jsonMarshal sendOk urls st).1.conn.closed = st.conn.closed ∧
    ∃ ext, (wsPass jsonMarshal sendOk urls st).1.conn.log = st.conn.log ++ ext ∧
      LogInv sendOk st.conn.log.length ext (wsPass jsonMarshal sendOk urls st).2 := by
  induction urls generalizing st with
  | nil => exact ⟨rfl, rfl, [], by simp [wsPass], logInv_nil _ _ _⟩
  | cons url rest ih =>
    cases hdb : st.dbMap url with
    | none =>
      rw [wsPass_absent jsonMarshal sendOk url rest st hdb]
      exact ih st
    | some cache =>
      cases hj : jsonMarshal cache with
      | error e =>
        rw [wsPass_marshal_error jsonMarshal sendOk url rest st cache e hdb hj]
        exact ih st
      | ok data =>
        cases hs : sendOk st.conn.log.length data with
        | false =>
          rw [wsPass_send_failed jsonMarshal sendOk url rest st cache data hdb hj hs]
          refine ⟨rfl, rfl, [(data, false)], rfl, ?_⟩
          have := logInv_single sendOk st.conn.log.length data true (fun _ => rfl)
          rwa [hs] at this
        | true =>
          rw [wsPass_sent jsonMarshal sendOk url rest st cache data hdb hj hs]
          obtain ⟨h1, h2, ext, h3, h4⟩ :=
            ih { dbMap := st.dbMap,
                 conn := { log := st.conn.log ++ [(data, true)], closed := st.conn.closed } }
          refine ⟨h1, h2, [(data, true)] ++ ext, ?_, ?_⟩
          · rw [h3]
            simp
          · apply logInv_append
            · have := logInv_single sendOk st.conn.log.length data false (by simp [hs])
              rwa [hs] at this
            · simpa using h4

theorem wsLoop_inv (cfg : Config) (jsonMarshal : feed → Except String String)
    (sendOk : Nat → String → Bool) (fuel : Nat) (st : WsState) :
    (wsLoop cfg jsonMarshal sendOk fuel st).1.dbMap = st.dbMap ∧
    (wsLoop cfg jsonMarshal sendOk fuel st).1.conn.closed = st.conn.closed ∧
    ∃ ext, (wsLoop cfg jsonMarshal sendOk fuel st).1.conn.log = st.conn.log ++ ext ∧
      LogInv sendOk st.conn.log.length ext (wsLoop cfg jsonMarshal sendOk fuel st).2 := by
  induction fuel generalizing st with
  | zero => exact ⟨rfl, rfl, [], by simp [wsLoop], logInv_nil _ _ _⟩
  | succ fuel ih =>
    obtain ⟨p1, p2, ext, p3, p4⟩ := wsPass_inv jsonMarshal sendOk cfg.Values st
    unfold wsLoop
    cases hp : wsPass jsonMarshal sendOk cfg.Values st with
    | mk st1 flag =>
      rw [hp] at p1 p2 p3 p4
      simp only at p1 p2 p3 p4
      cases flag with
      | true => exact ⟨p1, p2, ext, p3, p4⟩
      | false =>
        by_cases hz : cfg.AutoUpdatePush = 0
        · simp only [hz, if_true]
          exact ⟨p1, p2, ext, p3, ⟨p4.1, fun i d hi => ⟨(p4.2 i d hi).1, rfl⟩⟩⟩
        · simp only [hz, if_false]
          obtain ⟨q1, q2, ext2, q3, q4⟩ := ih st1
          refine ⟨q1.trans p1, q2.trans p2, ext ++ ext2, ?_, ?_⟩
          · rw [q3, p3, List.append_assoc]
          · apply logInv_append _ _ _ _ _ p4
            rw [p3, List.length_append] at q4
            exact q4

theorem wsLoop_stable (cfg : Config) (jsonMarshal : feed → Except String String)
    (sendOk : Nat → String → Bool) (fuel more : Nat) (st : WsState)
    (h : (wsLoop cfg jsonMarshal sendOk fuel st).2 = true) :
    wsLoop cfg jsonMarshal sendOk (fuel + more) st = wsLoop cfg jsonMarshal sendOk fuel st := by
  induction fuel generalizing st with
  | zero => simp [wsLoop] at h
  | succ fuel ih =>
    have hadd : fuel + 1 + more = (fuel + more) + 1 := by omega
    rw [hadd]
    unfold wsLoop at h ⊢
    cases hp : wsPass jsonMarshal sendOk cfg.Values st with
    | mk st1 flag =>
      rw [hp] at h
      cases flag with
      | true => rfl
      | false =>
        by_cases hz : cfg.AutoUpdatePush = 0
        · simp only [hz, if_true]
        · simp only [hz, if_false] at h ⊢
          exact ih st1 h

theorem wsHandler_dbMap (cfg : Config) (jsonMarshal : feed → Except String String)
    (upgrade : Bool) (sendOk : Nat → String → Bool) (fuel : Nat) (db : DbMap) :
    (wsHandler cfg jsonMarshal upgrade sendOk fuel db).dbMap = db := by
  unfold wsHandler
  cases upgrade with
  | false => rfl
  | true =>
    have h := (wsLoop_inv cfg jsonMarshal sendOk fuel
      { dbMap := db, conn := { log := [], closed := false } }).1
    simp only [if_true]
    cases hl : wsLoop cfg jsonMarshal sendOk fuel
        { dbMap := db, conn := { log := [], closed := false } } with
    | mk st flag =>
      rw [hl] at h
      cases flag <;> exact h

theorem wsPass_all_sent (jsonMarshal : feed → Except String String) (enc : feed → String)
    (sendOk : Nat → String → Bool) (hsend : ∀ n d, sendOk n d = true)
    (hjson : ∀ f, jsonMarshal f = .ok (enc f)) (urls : List String) (st : WsState) :
    wsPass jsonMarshal sendOk urls st
      = ({ dbMap := st.dbMap,
           conn := { log := st.conn.log ++ (urls.filterMap st.dbMap).map (fun f => (enc f, true)),
                     closed := st.conn.closed } },
         false) := by
  induction urls generalizing st with
  | nil => simp [wsPass]
  | cons url rest ih =>
    cases hdb : st.dbMap url with
    | none =>
      rw [wsPass_absent jsonMarshal sendOk url rest st hdb, ih st]
      simp [List.filterMap_cons, hdb]
    | some cache =>
      rw [wsPass_sent jsonMarshal sendOk url rest st cache (enc cache) hdb (hjson cache)
        (hsend _ _), ih]
      simp [List.filterMap_cons, hdb]

/-- C7: with push interval 0, when the upgrade succeeded, every send succeeds and
`json.Marshal` yields `enc f` for every snapshot `f`, a run of `wsHandler` with
any fuel of at least one pass returns, having sent exactly the serialized
snapshots of the configured sources that have an entry, in configured order
(nothing for the absent ones), and having closed the connection. -/
theorem wsHandler_single_pass (cfg : Config) (jsonMarshal : feed → Except String String)
    (enc : feed → String) (sendOk : Nat → String → Bool) (fuel : Nat) (db : DbMap)
    (hpush : cfg.AutoUpdatePush = 0) (hsend : ∀ n d, sendOk n d = true)
    (hjson : ∀ f, jsonMarshal f = .ok (enc f)) :
    (wsHandler cfg jsonMarshal true sendOk (fuel + 1) db).returned = true ∧
    (wsHandler cfg jsonMarshal true sendOk (fuel + 1) db).closed = true ∧
    (wsHandler cfg jsonMarshal true sendOk (fuel + 1) db).log
      = (cfg.Values.filterMap db).map (fun f => (enc f, true)) ∧
    (wsHandler cfg jsonMarshal true sendOk (fuel + 1) db).log.length
      = (cfg.Values.filter (fun u => (db u).isSome)).length := by
  have hloop : wsLoop cfg jsonMarshal sendOk (fuel + 1)
      { dbMap := db, conn := { log := [], closed := false } }
      = ({ dbMap := db,
           conn := { log := (cfg.Values.filterMap db).map (fun f => (enc f, true)),
                     closed := false } }, true) := by
    unfold wsLoop
    rw [wsPass_all_sent jsonMarshal enc sendOk hsend hjson]
    simp [hpush]
  have hlen : ∀ urls : List String,
      (urls.filterMap db).length = (urls.filter (fun u => (db u).isSome)).length := by
    intro urls
    induction urls with
    | nil => rfl
    | cons u rest ih => cases h : db u <;> simp [List.filterMap_cons, List.filter_cons, h, ih]
  unfold wsHandler
  simp only [if_true, hloop]
  refine ⟨trivial, trivial, trivial, ?_⟩
  simp [hlen]

/-- Witness of C7: sources "A", "B", only "A" cached, push interval 0, the
serialization standing for `json.Marshal` being the title of the snapshot. -/
theorem wsHandler_single_pass_witness :
    (wsHandler cfgAB (fun f => .ok f.Title) true (fun _ _ => true) 1 dbA).returned = true ∧
    (wsHandler cfgAB (fun f => .ok f.Title) true (fun _ _ => true) 1 dbA).closed = true ∧
    (wsHandler cfgAB (fun f => .ok f.Title) true (fun _ _ => true) 1 dbA).log
      = (cfgAB.Values.filterMap dbA).map (fun f => (f.Title, true)) ∧
    (wsHandler cfgAB (fun f => .ok f.Title) true (fun _ _ => true) 1 dbA).log.length
      = (cfgAB.Values.filter (fun u => (dbA u).isSome)).length :=
  wsHandler_single_pass cfgAB (fun f => .ok f.Title) (fun f => f.Title) (fun _ _ => true) 0 dbA
    (by decide) (fun _ _ => rfl) (fun _ => rfl)

/-- C8: in every run of `wsHandler`, whatever the push interval, the cache is
left as it was, every recorded send carries the outcome of the call with its
number, and once a send has failed it is the last call of the session: the
handler has returned and closed the connection, and no further pass adds a
call. -/
theorem wsHandler_send_failure (cfg : Config) (jsonMarshal : feed → Except String String)
    (upgrade : Bool) (sendOk : Nat → String → Bool) (fuel : Nat) (db : DbMap) :
    (wsHandler cfg jsonMarshal upgrade sendOk fuel db).dbMap = db ∧
    (∀ (i : Nat) (d : String) (b : Bool),
      (wsHandler cfg jsonMarshal upgrade sendOk fuel db).log[i]? = some (d, b) →
        b = sendOk i d) ∧
    (∀ (i : Nat) (d : String),
      (wsHandler cfg jsonMarshal upgrade sendOk fuel db).log[i]? = some (d, false) →
        i + 1 = (wsHandler cfg jsonMarshal upgrade sendOk fuel db).log.length ∧
        (wsHandler cfg jsonMarshal upgrade sendOk fuel db).returned = true ∧
        (wsHandler cfg jsonMarshal upgrade sendOk fuel db).closed = true ∧
        ∀ more, (wsHandler cfg jsonMarshal upgrade sendOk (fuel + more) db).log
          = (wsHandler cfg jsonMarshal upgrade sendOk fuel db).log) := by
  refine ⟨wsHandler_dbMap cfg jsonMarshal upgrade sendOk fuel db, ?_⟩
  cases upgrade with
  | false =>
    simp [wsHandler]
  | true =>
    obtain ⟨_, _, ext, hlog, hinv⟩ := wsLoop_inv cfg jsonMarshal sendOk fuel
      { dbMap := db, conn := { log := [], closed := false } }
    have hstable := fun more => wsLoop_stable cfg jsonMarshal sendOk fuel more
      { dbMap := db, conn := { log := [], closed := false } }
    unfold wsHandler
    simp only [if_true]
    cases hl : wsLoop cfg jsonMarshal sendOk fuel
        { dbMap := db, conn := { log := [], closed := false } } with
    | mk st flag =>
      rw [hl] at hlog hinv hstable
      simp only [List.nil_append, List.length_nil, Nat.zero_add] at hlog hinv
      cases flag with
      | true =>
        simp only [hstable _ rfl]
        refine ⟨?_, ?_⟩
        · intro i d b hi
          rw [hlog] at hi
          simpa using hinv.1 i d b hi
        · intro i d hi
          rw [hlog] at hi ⊢
          exact ⟨(hinv.2 i d hi).1, trivial, trivial, fun _ => trivial⟩
      | false =>
        refine ⟨?_, ?_⟩
        · intro i d b hi
          simp only at hi
          rw [hlog] at hi
          simpa using hinv.1 i d b hi
        · intro i d hi
          simp only at hi
          rw [hlog] at hi
          have := (hinv.2 i d hi).2
          simp at this

/-- Witness of C8: sources "A", "A", "B" with "A" cached, push interval 5, the
first send succeeds and the second fails: the failed call has index 1, it is the
last of the two calls made, and the handler has returned. -/
theorem wsHandler_send_failure_witness :
    1 + 1 = (wsHandler { Values := ["A", "A", "B"], ReFresh := 1, AutoUpdatePush := 5 }
        (fun f => .ok f.Title) true (fun n _ => decide (n = 0)) 3 dbA).log.length ∧
    (wsHandler { Values := ["A", "A", "B"], ReFresh := 1, AutoUpdatePush := 5 }
        (fun f => .ok f.Title) true (fun n _ => decide (n = 0)) 3 dbA).returned = true :=
  have h := (wsHandler_send_failure { Values := ["A", "A", "B"], ReFresh := 1, AutoUpdatePush := 5 }
    (fun f => .ok f.Title) true (fun n _ => decide (n = 0)) 3 dbA).2.2 1 "Feed A" (by decide)
  ⟨h.1, h.2.1⟩

/-! ## The key space of the cache -/

theorem updateFeed_keys (db : DbMap) (parsed : Except String gofeed.Feed) (u ts k : String)
    (h : (updateFeed db parsed u ts k).isSome = true) : (db k).isSome = true ∨ k = u := by
  cases parsed with
  | error e => exact Or.inl h
  | ok result =>
    cases hn : noUpdate db u result with
    | true =>
      rw [updateFeed_skip db u ts result hn] at h
      exact Or.inl h
    | false =>
      rw [updateFeed_write db u ts result hn] at h
      by_cases hk : k = u
      · exact Or.inr hk
      · rw [set_other db u k _ hk] at h
        exact Or.inl h

theorem updateFeed_keeps (db : DbMap) (parsed : Except String gofeed.Feed) (u ts k : String)
    (h : (db k).isSome = true) : (updateFeed db parsed u ts k).isSome = true := by
  cases parsed with
  | error e => exact h
  | ok result =>
    cases hn : noUpdate db u result with
    | true =>
      rw [updateFeed_skip db u ts result hn]
      exact h
    | false =>
      rw [updateFeed_write db u ts result hn]
      by_cases hk : k = u
      · rw [hk, set_same]
        rfl
      · rw [set_other db u k _ hk]
        exact h

theorem tick_fold_keys (fp : String → Except String gofeed.Feed) (ts : String)
    (urls : List String) (db : DbMap) (k : String)
    (h : ((urls.foldl (fun db url => updateFeed db (fp url) url ts) db) k).isSome = true) :
    (db k).isSome = true ∨ k ∈ urls := by
  induction urls generalizing db with
  | nil => exact Or.inl h
  | cons u rest ih =>
    rw [List.foldl_cons] at h
    rcases ih _ h with h1 | h1
    · rcases updateFeed_keys db (fp u) u ts k h1 with h2 | h2
      · exact Or.inl h2
      · exact Or.inr (by simp [h2])
    · exact Or.inr (List.mem_cons_of_mem _ h1)

theorem tick_fold_keeps (fp : String → Except String gofeed.Feed) (ts : String)
    (urls : List String) (db : DbMap) (k : String) (h : (db k).isSome = true) :
    ((urls.foldl (fun db url => updateFeed db (fp url) url ts) db) k).isSome = true := by
  induction urls generalizing db with
  | nil => exact h
  | cons u rest ih =>
    rw [List.foldl_cons]
    exact ih _ (updateFeed_keeps db (fp u) u ts k h)

theorem run_keys (cfg : Config) (jsonMarshal : feed → Except String String) (db : DbMap)
    (op : Op) (hop : op.launched cfg) (k : String)
    (h : (Op.run cfg jsonMarshal db op k).isSome = true) :
    (db k).isSome = true ∨ k ∈ cfg.Values := by
  cases op with
  | updateFeed url parsed ts =>
    rcases updateFeed_keys db parsed url ts k h with h1 | h1
    · exact Or.inl h1
    · exact Or.inr (h1 ▸ hop)
  | updateFeedsTick fp ts => exact tick_fold_keys fp ts cfg.Values db k h
  | getFeeds => exact Or.inl h
  | getKeywords => exact Or.inl h
  | wsHandler upgrade sendOk fuel =>
    have hdb : Op.run cfg jsonMarshal db (.wsHandler upgrade sendOk fuel)
        = (RssReader.wsHandler cfg jsonMarshal upgrade sendOk fuel db).dbMap := rfl
    rw [hdb, wsHandler_dbMap] at h
    exact Or.inl h

theorem run_keeps (cfg : Config) (jsonMarshal : feed → Except String String) (db : DbMap)
    (op : Op) (k : String) (h : (db k).isSome = true) :
    (Op.run cfg jsonMarshal db op k).isSome = true := by
  cases op with
  | updateFeed url parsed ts => exact updateFeed_keeps db parsed url ts k h
  | updateFeedsTick fp ts => exact tick_fold_keeps fp ts cfg.Values db k h
  | getFeeds => exact h
  | getKeywords => exact h
  | wsHandler upgrade sendOk fuel =>
    have hdb : Op.run cfg jsonMarshal db (.wsHandler upgrade sendOk fuel)
        = (RssReader.wsHandler cfg jsonMarshal upgrade sendOk fuel db).dbMap := rfl
    rw [hdb, wsHandler_dbMap]
    exact h

theorem runOps_keys (cfg : Config) (jsonMarshal : feed → Except String String)
    (ops : List Op) (db : DbMap) (hops : ∀ op ∈ ops, op.launched cfg)
    (hdb : ∀ k, (db k).isSome = true → k ∈ cfg.Values) (k : String)
    (h : (runOps cfg jsonMarshal db ops k).isSome = true) : k ∈ cfg.Values := by
  induction ops generalizing db with
  | nil => exact hdb k h
  | cons op rest ih =>
    have hstep : runOps cfg jsonMarshal db (op :: rest)
        = runOps cfg jsonMarshal (Op.run cfg jsonMarshal db op) rest := rfl
    rw [hstep] at h
    apply ih (Op.run cfg jsonMarshal db op) (fun o ho => hops o (List.mem_cons_of_mem _ ho)) _ h
    intro k1 hk1
    rcases run_keys cfg jsonMarshal db op (hops op (List.mem_cons_self _ _)) k1 hk1 with h1 | h1
    · exact hdb k1 h1
    · exact h1

theorem updateFeeds_keys (cfg : Config) (fp : Nat → String → Except String gofeed.Feed)
    (now : Nat → String) (n : Nat) (db : DbMap)
    (hdb : ∀ k, (db k).isSome = true → k ∈ cfg.Values) (k : String)
    (h : (updateFeeds cfg fp now n db k).isSome = true) : k ∈ cfg.Values := by
  induction n generalizing k with
  | zero => exact hdb k h
  | succ n ih =>
    rcases tick_fold_keys (fp n) (now n) cfg.Values (updateFeeds cfg fp now n db) k h with h1 | h1
    · exact ih k h1
    · exact h1

/-- C10: starting from the empty cache made at startup, after any finite
sequence of operations (the `updateFeed` goroutines started for configured
urls, whatever their outcome, whole iterations of `updateFeeds`, `getFeeds`,
`getKeywords`, runs of `wsHandler`), every key of the cache is a configured
source, and any further operation keeps every key that was present before it;
the same holds of the cache after any number of iterations of `updateFeeds`
alone. -/
theorem keyspace_invariant (cfg : Config) (jsonMarshal : feed → Except String String)
    (ops : List Op) (hops : ∀ op ∈ ops, op.launched cfg) :
    (∀ k, (runOps cfg jsonMarshal DbMap.empty ops k).isSome = true → k ∈ cfg.Values) ∧
    (∀ (op : Op) (k : String), (runOps cfg jsonMarshal DbMap.empty ops k).isSome = true →
      (runOps cfg jsonMarshal DbMap.empty (ops ++ [op]) k).isSome = true) ∧
    (∀ (fp : Nat → String → Except String gofeed.Feed) (now : Nat → String) (n : Nat)
      (k : String), (updateFeeds cfg fp now n DbMap.empty k).isSome = true →
        k ∈ cfg.Values ∧ (updateFeeds cfg fp now (n + 1) DbMap.empty k).isSome = true) := by
  have hempty : ∀ k, (DbMap.empty k).isSome = true → k ∈ cfg.Values := by
    intro k1 hk1
    simp [DbMap.empty] at hk1
  refine ⟨fun k h => runOps_keys cfg jsonMarshal ops DbMap.empty hops hempty k h, ?_, ?_⟩
  · intro op k h
    have hstep : runOps cfg jsonMarshal DbMap.empty (ops ++ [op])
        = Op.run cfg jsonMarshal (runOps cfg jsonMarshal DbMap.empty ops) op := by
      simp [runOps, List.foldl_append]
    rw [hstep]
    exact run_keeps cfg jsonMarshal _ op k h
  · intro fp now n k h
    exact ⟨updateFeeds_keys cfg fp now n DbMap.empty hempty k h,
      tick_fold_keeps (fp n) (now n) cfg.Values _ k h⟩

/-- Witness of C10: after a failed fetch of "B", a first fetch of "A", a pass of
`getFeeds` and a second fetch of "A" with a new newest link, "A" is a key of
the cache and is a configured source. -/
theorem keyspace_invariant_witness :
    (runOps cfgAB (fun f => .ok f.Title) DbMap.empty
        [.updateFeed "B" (.error "timeout") "t0", .updateFeed "A" (.ok (fetched "Feed A" "x")) "t0",
         .getFeeds, .updateFeed "A" (.ok (fetched "Feed A" "y")) "t1"] "A").isSome = true ∧
    "A" ∈ cfgAB.Values :=
  ⟨by decide,
   (keyspace_invariant cfgAB (fun f => .ok f.Title)
      [.updateFeed "B" (.error "timeout") "t0", .updateFeed "A" (.ok (fetched "Feed A" "x")) "t0",
       .getFeeds, .updateFeed "A" (.ok (fetched "Feed A" "y")) "t1"]
      (by
        intro op hop
        simp only [List.mem_cons, List.mem_singleton, List.not_mem_nil, or_false] at hop
        rcases hop with h | h | h | h <;> subst h <;> simp [Op.launched, cfgAB])).1 "A"
      (by decide)⟩

end RssReader
